import Mathlib

/-!
# esmBot `events/ready.js`: a shallow embedding

The file embeds the parts of `src/events/ready.js` that build the argument
sequence of `gm.prototype.bufferPromise`, the stream callback that settles its
promise, the guild reconciliation loop, the weekly stale-entry job and the
command-counter synchronisation.

JavaScript strings are Lean strings, an optional argument is an `Option`, a
`Buffer` is a list of bytes, and a collection of the document store is the list
of its documents in storage order.
-/

namespace ReadyJs

/-! ## The `gm` handle and its argument accumulators -/

/-- The two argument accumulators of a `gm` handle that `bufferPromise` extends:
`_in` (arguments placed before the source image) and `_out` (arguments placed
after it). -/
structure Gm where
  _in : List String
  _out : List String
  deriving DecidableEq, Repr

/-- JavaScript truthiness of a string value: every string but the empty one. -/
def truthy (s : String) : Bool := s != ""

/-- The call `this.in(a, b, …)` of the `gm` library: the arguments are appended to
the `_in` accumulator in call order. -/
def Gm.in_ (g : Gm) (args : List String) : Gm :=
  { g with _in := g._in ++ args }

/-- The call `this.out(a, b, …)` of the `gm` library: the arguments are appended to
the `_out` accumulator in call order. -/
def Gm.out (g : Gm) (args : List String) : Gm :=
  { g with _out := g._out ++ args }

/-- The input arguments handed to the engine: `gm` assembles its command line
with `.filter(Boolean)`, which drops the falsy (empty-string) entries of `_in`. -/
def Gm.inArgs (g : Gm) : List String := g._in.filter truthy

/-- The output arguments handed to the engine: the truthy entries of `_out`. -/
def Gm.outArgs (g : Gm) : List String := g._out.filter truthy

/-- The expression `delay.split("/").reverse().join("x")`. -/
def delayToken (delay : String) : String :=
  "x".intercalate (delay.split (fun c => c == '/')).reverse

/-- The test `type !== "sonic"`. -/
def notSonic (type : Option String) : Bool := type != some "sonic"

/-- The two arguments of the `.in(…)` call of `bufferPromise` (lines 25-28). The
test `delay ? … : …` is false for an absent delay and for the empty string. -/
def inCall (delay : Option String) : List String :=
  match delay with
  | some d =>
    [if truthy d then "-delay" else "", if truthy d then delayToken d else ""]
  | none => ["", ""]

/-- The two arguments of the first `.out(…)` call (lines 29-32). -/
def layersCall (type : Option String) : List String :=
  [if notSonic type then "-layers" else "",
   if notSonic type then "OptimizeTransparency" else ""]

/-- The two arguments of the second `.out(…)` call (line 33). -/
def fuzzCall (type : Option String) : List String :=
  [if notSonic type then "-fuzz" else "", if notSonic type then "2%" else ""]

/-- The handle as `bufferPromise(format, delay, type)` leaves it when it calls
`.stream(format, …)`: one `.in` call followed by five `.out` calls (lines 25-36).
The format is only passed on to `.stream` and takes no part in the accumulators. -/
def bufferPromiseChain (g : Gm) (_format : String) (delay type : Option String) : Gm :=
  (((((g.in_ (inCall delay)).out (layersCall type)).out (fuzzCall type)).out
    ["+profile", "xmp"]).out ["-limit", "memory", "64MB"]).out ["-limit", "map", "128MB"]

/-- The argument sequence `bufferPromise` builds on a handle that carries no
arguments yet: the input arguments followed by the output arguments, as the
engine receives them. -/
def bufferPromiseArgs (format : String) (delay type : Option String) : List String :=
  let g := bufferPromiseChain ⟨[], []⟩ format delay type
  g.inArgs ++ g.outArgs

/-! ## The stream callback of `bufferPromise` -/

/-- A `Buffer`: a sequence of bytes. -/
abbrev Buffer := List Nat

/-- What the promise of `bufferPromise` is rejected with: the error object the
stream callback received (`reject(err)`), or a text (`reject(data.toString())`). -/
inductive Rejection where
  | error (err : String)
  | text (payload : String)
  deriving DecidableEq, Repr

/-- The settled value of the promise: `resolve(bytes)` or `reject(reason)`. -/
inductive Outcome where
  | Success (bytes : Buffer)
  | Failure (reason : Rejection)
  deriving DecidableEq, Repr

/-- The events the two channels emit after the stream callback has run. -/
inductive StreamEvent where
  | stdoutData (chunk : Buffer)
  | stdoutEnd
  | stderrData (data : Buffer)
  deriving DecidableEq, Repr

/-- The state the stream callback closes over (lines 39-50): the `chunks` array,
whether the two `once` listeners are still registered, and the promise, which is
pending (`none`) or settled. -/
structure CallbackState where
  chunks : List Buffer
  endListener : Bool
  stderrListener : Bool
  settled : Option Outcome
  deriving DecidableEq, Repr

/-- A call of `resolve` or `reject`: it settles a pending promise and has no
effect on a settled one. -/
def CallbackState.settle (s : CallbackState) (o : Outcome) : CallbackState :=
  match s.settled with
  | none => { s with settled := some o }
  | some _ => s

/-- The state right after the callback registered its three listeners. -/
def CallbackState.start : CallbackState :=
  { chunks := [], endListener := true, stderrListener := true, settled := none }

/-- Delivery of one event. `stdout.on("data")` pushes the chunk; the `once`
listeners run for the first event of their kind and are then removed, so a later
event of that kind finds no listener. The decoder `toString` stands for
`data.toString()`. -/
def CallbackState.step (toString : Buffer → String) (s : CallbackState) :
    StreamEvent → CallbackState
  | .stdoutData chunk => { s with chunks := s.chunks ++ [chunk] }
  | .stdoutEnd =>
    if s.endListener then
      ({ s with endListener := false }).settle (.Success s.chunks.flatten)
    else s
  | .stderrData data =>
    if s.stderrListener then
      ({ s with stderrListener := false }).settle (.Failure (.text (toString data)))
    else s

/-- Whether the callback has a listener registered for an event: the `on`
listener of primary data always, a `once` listener until it has run. An event
without a listener runs no code of the callback. -/
def CallbackState.listens (s : CallbackState) : StreamEvent → Bool
  | .stdoutData _ => true
  | .stdoutEnd => s.endListener
  | .stderrData _ => s.stderrListener

/-- Delivery of a sequence of events, in arrival order. -/
def CallbackState.run (toString : Buffer → String) (s : CallbackState)
    (events : List StreamEvent) : CallbackState :=
  events.foldl (CallbackState.step toString) s

/-- The promise of `bufferPromise` after the stream callback was called with
`err` and the channels then emitted `events`: with an `err` the callback rejects
and returns before it registers a listener (line 38). -/
def bufferPromiseOutcome (toString : Buffer → String) (err : Option String)
    (events : List StreamEvent) : Option Outcome :=
  match err with
  | some e => some (.Failure (.error e))
  | none => (CallbackState.start.run toString events).settled

/-- The invariant of the callback state before the end event: the promise is
pending with the diagnostic listener in place, or it is already rejected. -/
def CallbackState.pendingOrFailed (s : CallbackState) : Bool :=
  match s.settled with
  | none => s.stderrListener
  | some (.Failure _) => true
  | some (.Success _) => false

/-- A decoder used where a concrete one is needed: one character per byte. -/
def byteText (b : Buffer) : String := String.mk (b.map Char.ofNat)

/-! ## The guild collection of the document store -/

/-- The tag table of a guild record. -/
abbrev Tags := List (String × String)

/-- The warn table of a guild record. -/
abbrev Warns := List (String × Nat)

/-- A guild record. A field a document does not carry is `none`. The field `pfx`
is the record's `prefix`. -/
structure GuildDoc where
  id : String
  tags : Option Tags
  pfx : Option String
  warns : Option Warns
  disabledChannels : Option (List String)
  deriving DecidableEq, Repr

/-- The guild collection: its documents in storage order. -/
abbrev GuildStore := List GuildDoc

/-- Modelled from the spec: the guild schema is declared in the database module,
which is not among the sources. The field `disabledChannels` is an array (lines
74 and 84 write `[]` to it); the document that mongoose loads from a stored
record has the empty array at an array path the record lacks, and the next
`save()` of the document writes it. The other fields are loaded as stored. -/
def hydrate (d : GuildDoc) : GuildDoc :=
  { d with disabledChannels := some (d.disabledChannels.getD []) }

/-- The query `database.guilds.findOne({ id: id })`: the document loaded from the
first stored record with this id. -/
def findOne (store : GuildStore) (id : String) : Option GuildDoc :=
  (store.find? (fun d => d.id == id)).map hydrate

/-- The effect of `guildDB.set(…)` followed by `guildDB.save()` on the document
that `findOne` returned: the first record with this id is replaced by the loaded
document with the field set. -/
def saveFound (id : String) (f : GuildDoc → GuildDoc) : GuildStore → GuildStore
  | [] => []
  | d :: ds => if d.id == id then f (hydrate d) :: ds else d :: saveFound id f ds

/-- The record registered for a guild without one (lines 69-75). -/
def newGuild (tagDefaults : Tags) (id : String) : GuildDoc :=
  { id := id, tags := some tagDefaults, pfx := some "&", warns := some [],
    disabledChannels := some [] }

/-- One iteration of the reconciliation loop (lines 60-87). -/
def reconcileGuild (tagDefaults : Tags) (store : GuildStore) (id : String) : GuildStore :=
  match findOne store id with
  | none => store ++ [newGuild tagDefaults id]
  | some guildDB =>
    if guildDB.warns.isNone then
      saveFound id (fun d => { d with warns := some [] }) store
    else if guildDB.disabledChannels.isNone then
      saveFound id (fun d => { d with disabledChannels := some [] }) store
    else store

/-- The loop `for (const [id] of client.guilds)` (lines 59-88). -/
def reconcile (tagDefaults : Tags) (guilds : List String) (store : GuildStore) : GuildStore :=
  guilds.foldl (reconcileGuild tagDefaults) store

/-- Whether the first stored record of a guild carries `warns`. -/
def hasWarns (store : GuildStore) (id : String) : Bool :=
  match store.find? (fun d => d.id == id) with
  | some d => d.warns.isSome
  | none => false

/-- The call `database.guilds.deleteMany({ id: id })`. -/
def deleteMany (id : String) (store : GuildStore) : GuildStore :=
  store.filter (fun d => d.id != id)

/-- One iteration of the loop of the weekly job (lines 93-98); `guilds` are the
ids of `client.guilds`. -/
def staleStep (guilds : List String) (store : GuildStore) (doc : GuildDoc) : GuildStore :=
  if guilds.contains doc.id then store else deleteMany doc.id store

/-- The weekly job (lines 90-100): the loop runs over the documents that
`find({})` returned when the job started. -/
def staleJob (guilds : List String) (store : GuildStore) : GuildStore :=
  store.foldl (staleStep guilds) store

/-! ## The global record and its command counters -/

/-- The mapping `cmdCounts`, from command name to count, in insertion order. -/
abbrev CmdCounts := List (String × Int)

/-- The call `cmdCounts.get(command)`. -/
def CmdCounts.get (m : CmdCounts) (command : String) : Option Int :=
  m.lookup command

/-- The call `cmdCounts.has(command)`. -/
def CmdCounts.has (m : CmdCounts) (command : String) : Bool :=
  (m.lookup command).isSome

/-- The call `cmdCounts.set(command, count)` of the map: an existing entry is
overwritten in place, a new one is added at the end. -/
def CmdCounts.set : CmdCounts → String → Int → CmdCounts
  | [], command, count => [(command, count)]
  | (k, v) :: m, command, count =>
    if command == k then (k, count) :: m else (k, v) :: CmdCounts.set m command count

/-- The assignment `countObject[command] = count` on the plain object of line
105: the key `__proto__` reaches the accessor of the object prototype, which
ignores a number, so no property is created; every other key is set. -/
def assignKey (countObject : CmdCounts) (command : String) (count : Int) : CmdCounts :=
  if command == "__proto__" then countObject else countObject.set command count

/-- The global record. -/
structure GlobalDoc where
  cmdCounts : CmdCounts
  deriving DecidableEq, Repr

/-- The command-counter synchronisation (lines 103-120): the global record the
store holds afterwards; `commands` are the keys of `collections.commands`. -/
def syncCmdCounts (global : Option GlobalDoc) (commands : List String) : GlobalDoc :=
  match global with
  | none => { cmdCounts := commands.foldl (fun countObject c => assignKey countObject c 0) [] }
  | some g =>
    { cmdCounts := commands.foldl (fun m c => if m.has c then m else m.set c 0) g.cmdCounts }

/-! ## Facts about `split`, `reverse` and `join` -/

theorem intercalate_go_data (s : String) (l : List String) (acc : String) :
    (String.intercalate.go acc s l).data =
      acc.data ++ (l.map (fun a => s.data ++ a.data)).flatten := by
  induction l generalizing acc with
  | nil => simp [String.intercalate.go]
  | cons a as ih => simp [String.intercalate.go, ih, String.data_append]

theorem splitOnP_length {α : Type} (p : α → Bool) (xs : List α) :
    (xs.splitOnP p).length = (xs.filter p).length + 1 := by
  induction xs with
  | nil => simp
  | cons x xs ih =>
    rw [List.splitOnP_cons]
    by_cases h : p x
    · simp [h, ih]
    · simp [h, ih]

/-- A delay without a slash is its own delay token. -/
theorem delayToken_no_slash (d : String) (h : '/' ∉ d.data) : delayToken d = d := by
  have hs : List.splitOnP (fun c => c == '/') d.data = [d.data] := by
    apply List.splitOnP_eq_single
    intro x hx hp
    have : x = '/' := by simpa using hp
    exact h (this ▸ hx)
  simp [delayToken, String.split_of_valid, hs, String.intercalate, String.intercalate.go]

/-- The delay token of `a/b` is `bxa`. -/
theorem delayToken_slash (a b : String) (ha : '/' ∉ a.data) (hb : '/' ∉ b.data) :
    delayToken (a ++ "/" ++ b) = b ++ "x" ++ a := by
  have hb1 : List.splitOnP (fun c => c == '/') b.data = [b.data] := by
    apply List.splitOnP_eq_single
    intro x hx hp
    have : x = '/' := by simpa using hp
    exact hb (this ▸ hx)
  have hs : List.splitOnP (fun c => c == '/') (a ++ "/" ++ b).data = [a.data, b.data] := by
    have hd : (a ++ "/" ++ b).data = a.data ++ '/' :: b.data := by
      simp [String.data_append]
    rw [hd, List.splitOnP_first, hb1]
    · intro x hx hp
      have : x = '/' := by simpa using hp
      exact ha (this ▸ hx)
    · simp
  unfold delayToken
  rw [String.split_of_valid, hs]
  rfl

/-- The delay token of a delay with a slash contains the letter `x`. -/
theorem delayToken_has_x (d : String) (h : '/' ∈ d.data) : 'x' ∈ (delayToken d).data := by
  have hlen := splitOnP_length (fun c => c == '/') d.data
  have hpos : 0 < (d.data.filter (fun c => c == '/')).length := by
    apply List.length_pos_of_mem (a := '/')
    simp [List.mem_filter, h]
  generalize hparts : List.splitOnP (fun c => c == '/') d.data = parts at hlen
  have hrev : (parts.map String.mk).reverse.length = parts.length := by simp
  match hm : (parts.map String.mk).reverse, hrev with
  | [], hr => simp at hr; omega
  | [_], hr => simp at hr; omega
  | p :: q :: rest, _ =>
    simp [delayToken, String.split_of_valid, hparts, hm, String.intercalate,
      intercalate_go_data]

/-- The delay token of a non-empty delay is non-empty, so it is never dropped. -/
theorem delayToken_truthy (d : String) (h : d ≠ "") : truthy (delayToken d) = true := by
  by_cases hs : '/' ∈ d.data
  · have hx := delayToken_has_x d hs
    have : delayToken d ≠ "" := by
      intro he
      rw [he] at hx
      simp at hx
    simpa [truthy] using this
  · rw [delayToken_no_slash d hs]
    simpa [truthy] using h

/-- The tokens the `.in` call contributes once the falsy placeholders are dropped. -/
theorem inCall_filter (delay : Option String) :
    (inCall delay).filter truthy =
      match delay with
      | none => []
      | some d => if d = "" then [] else ["-delay", delayToken d] := by
  cases delay with
  | none => simp [inCall, truthy]
  | some d =>
    by_cases hd : d = ""
    · subst hd
      simp [inCall, truthy]
    · have ht := delayToken_truthy d hd
      have hd2 : truthy d = true := by simpa [truthy] using hd
      have h1 : truthy "-delay" = true := by decide
      simp only [inCall, hd2, if_true, hd, if_false]
      simp [List.filter, ht, h1]

/-- The tokens the two mode-dependent `.out` calls contribute once the falsy
placeholders are dropped. -/
theorem layers_fuzz_filter (type : Option String) :
    (layersCall type ++ fuzzCall type).filter truthy =
      if type = some "sonic" then []
      else ["-layers", "OptimizeTransparency", "-fuzz", "2%"] := by
  by_cases h : type = some "sonic"
  · subst h
    simp [layersCall, fuzzCall, notSonic, truthy]
  · have hn : notSonic type = true := by simpa [notSonic] using h
    simp [layersCall, fuzzCall, hn, h, truthy, List.filter]

theorem chain_inArgs (g : Gm) (format : String) (delay type : Option String) :
    (bufferPromiseChain g format delay type).inArgs =
      g.inArgs ++ (match delay with
        | none => []
        | some d => if d = "" then [] else ["-delay", delayToken d]) := by
  rw [← inCall_filter]
  simp [bufferPromiseChain, Gm.inArgs, Gm.in_, Gm.out]

theorem chain_outArgs (g : Gm) (format : String) (delay type : Option String) :
    (bufferPromiseChain g format delay type).outArgs =
      g.outArgs ++ (if type = some "sonic" then []
        else ["-layers", "OptimizeTransparency", "-fuzz", "2%"]) ++
        ["+profile", "xmp", "-limit", "memory", "64MB", "-limit", "map", "128MB"] := by
  rw [← layers_fuzz_filter]
  simp [bufferPromiseChain, Gm.outArgs, Gm.in_, Gm.out, truthy, List.filter_append]

theorem bufferPromiseArgs_eq (format : String) (delay type : Option String) :
    bufferPromiseArgs format delay type =
      (match delay with
        | none => []
        | some d => if d = "" then [] else ["-delay", delayToken d]) ++
      (if type = some "sonic" then []
        else ["-layers", "OptimizeTransparency", "-fuzz", "2%"]) ++
      ["+profile", "xmp", "-limit", "memory", "64MB", "-limit", "map", "128MB"] := by
  simp only [bufferPromiseArgs, chain_inArgs, chain_outArgs]
  simp [Gm.inArgs, Gm.outArgs]

theorem slash_delay_truthy (a b : String) : truthy (a ++ "/" ++ b) = true := by
  have hd : (a ++ "/" ++ b).data = a.data ++ '/' :: b.data := by
    simp [String.data_append]
  have hne : a ++ "/" ++ b ≠ "" := by
    intro he
    rw [he] at hd
    simp at hd
  simpa [truthy] using hne

/-! ## The argument sequence of `bufferPromise` -/

/-- C1: for a delay `a/b` whose parts `a` and `b` hold no slash, the `.in` call of
`bufferPromise` adds to the handle exactly the flag `-delay` followed by the
single token `bxa`, both in the `_in` accumulator and in the input arguments the
engine receives. -/
theorem bufferPromise_delay_reversed (g : Gm) (format a b : String) (type : Option String)
    (ha : '/' ∉ a.data) (hb : '/' ∉ b.data) :
    (bufferPromiseChain g format (some (a ++ "/" ++ b)) type)._in =
        g._in ++ ["-delay", b ++ "x" ++ a] ∧
      (bufferPromiseChain g format (some (a ++ "/" ++ b)) type).inArgs =
        g.inArgs ++ ["-delay", b ++ "x" ++ a] := by
  have ht := slash_delay_truthy a b
  have hne : a ++ "/" ++ b ≠ "" := by simpa [truthy] using ht
  constructor
  · simp only [bufferPromiseChain, Gm.in_, Gm.out, inCall, ht, if_true,
      delayToken_slash a b ha hb]
  · rw [chain_inArgs]
    simp only [hne, if_false, delayToken_slash a b ha hb]

/-- The delay `100/2` on a fresh handle: the engine receives `-delay 2x100`. -/
theorem bufferPromise_delay_reversed_witness :
    '/' ∉ "100".data ∧ '/' ∉ "2".data ∧
      (bufferPromiseChain ⟨[], []⟩ "gif" (some "100/2") none).inArgs = ["-delay", "2x100"] :=
  ⟨by decide, by decide,
    (bufferPromise_delay_reversed ⟨[], []⟩ "gif" "100" "2" none (by decide) (by decide)).2⟩

/-- A token without the letter `x` that differs from the fixed tokens occurs in
the argument sequence of the type `sonic` only as the delay value of a delay
without a slash, which is then that token. -/
theorem sonic_token_is_delay (format : String) (delay : Option String) (t : String)
    (hx : 'x' ∉ t.data)
    (hfix : t ∉ ["+profile", "xmp", "-limit", "memory", "64MB", "-limit", "map", "128MB",
      "-delay"])
    (hm : t ∈ bufferPromiseArgs format delay (some "sonic")) :
    ∃ d, delay = some d ∧ '/' ∉ d.data ∧ d = t := by
  rw [bufferPromiseArgs_eq] at hm
  simp only [if_true, List.append_nil] at hm
  rcases List.mem_append.1 hm with hd | hf
  · cases delay with
    | none => simp at hd
    | some d =>
      by_cases he : d = ""
      · simp [he] at hd
      · simp only [he, if_false, List.mem_cons, List.mem_singleton, List.not_mem_nil,
          or_false] at hd
        rcases hd with hd | hd
        · exact absurd (by simp [hd]) hfix
        · by_cases hsl : '/' ∈ d.data
          · exact absurd (hd ▸ delayToken_has_x d hsl) hx
          · rw [delayToken_no_slash d hsl] at hd
            exact ⟨d, rfl, hsl, hd.symm⟩
  · exact absurd (by simp only [List.mem_cons] at hf ⊢; tauto) hfix

/-- C2: the argument sequence `bufferPromise` builds is the delay tokens (none
for an absent or empty delay, else `-delay` and the parts of the delay between
slashes, reversed and joined with `x`), then the four layering and fuzz tokens
unless the type is `sonic`, then `+profile xmp`, `-limit memory 64MB` and
`-limit map 128MB`, with nothing else; on any handle these are exactly the tokens
added to its input and output arguments; for a delay `a/b` the delay tokens are
`-delay` and `bxa`; with no delay and a type other than `sonic` the sequence is
the twelve fixed tokens. -/
theorem bufferPromiseArgs_exact (g : Gm) (format : String) (delay type : Option String) :
    bufferPromiseArgs format delay type =
        (match delay with
          | none => []
          | some d => if d = "" then []
            else ["-delay", "x".intercalate (d.split (fun c => c == '/')).reverse]) ++
        (if type = some "sonic" then []
          else ["-layers", "OptimizeTransparency", "-fuzz", "2%"]) ++
        ["+profile", "xmp", "-limit", "memory", "64MB", "-limit", "map", "128MB"] ∧
      (bufferPromiseChain g format delay type).inArgs =
        g.inArgs ++ (match delay with
          | none => []
          | some d => if d = "" then []
            else ["-delay", "x".intercalate (d.split (fun c => c == '/')).reverse]) ∧
      (bufferPromiseChain g format delay type).outArgs =
        g.outArgs ++ (if type = some "sonic" then []
          else ["-layers", "OptimizeTransparency", "-fuzz", "2%"]) ++
        ["+profile", "xmp", "-limit", "memory", "64MB", "-limit", "map", "128MB"] ∧
      (∀ a b : String, '/' ∉ a.data → '/' ∉ b.data →
        bufferPromiseArgs format (some (a ++ "/" ++ b)) type =
          ["-delay", b ++ "x" ++ a] ++
          (if type = some "sonic" then []
            else ["-layers", "OptimizeTransparency", "-fuzz", "2%"]) ++
          ["+profile", "xmp", "-limit", "memory", "64MB", "-limit", "map", "128MB"]) ∧
      (type ≠ some "sonic" →
        bufferPromiseArgs format none type =
          ["-layers", "OptimizeTransparency", "-fuzz", "2%", "+profile", "xmp",
            "-limit", "memory", "64MB", "-limit", "map", "128MB"]) := by
  refine ⟨bufferPromiseArgs_eq format delay type, chain_inArgs g format delay type,
    chain_outArgs g format delay type, ?_, ?_⟩
  · intro a b ha hb
    have hne : a ++ "/" ++ b ≠ "" := by simpa [truthy] using slash_delay_truthy a b
    rw [bufferPromiseArgs_eq]
    simp only [hne, if_false, delayToken_slash a b ha hb]
  · intro h
    rw [bufferPromiseArgs_eq]
    simp [h]

/-- The scenarios of the design: format `ogg`, delay `100/3`, type `sonic`, and
format `webp` with no delay and no type. -/
theorem bufferPromiseArgs_exact_witness :
    bufferPromiseArgs "ogg" (some "100/3") (some "sonic") =
        ["-delay", "3x100", "+profile", "xmp", "-limit", "memory", "64MB", "-limit", "map",
          "128MB"] ∧
      bufferPromiseArgs "webp" none none =
        ["-layers", "OptimizeTransparency", "-fuzz", "2%", "+profile", "xmp",
          "-limit", "memory", "64MB", "-limit", "map", "128MB"] :=
  ⟨(bufferPromiseArgs_exact ⟨[], []⟩ "ogg" none (some "sonic")).2.2.2.1 "100" "3"
      (by decide) (by decide),
    (bufferPromiseArgs_exact ⟨[], []⟩ "webp" none none).2.2.2.2 (by decide)⟩

/-- C3: with the type `sonic` and a delay that is absent or holds a slash, the
argument sequence contains none of the tokens `-layers`, `OptimizeTransparency`,
`-fuzz`, `2%`; with any other type, an absent one included, and every delay, the
sequence contains `-layers` immediately followed by `OptimizeTransparency` and
`-fuzz` immediately followed by `2%`, hence all four. -/
theorem bufferPromiseArgs_mode_tokens (format : String) (delay type : Option String) :
    (type = some "sonic" → (∀ d, delay = some d → '/' ∈ d.data) →
      ∀ t ∈ ["-layers", "OptimizeTransparency", "-fuzz", "2%"],
        t ∉ bufferPromiseArgs format delay type) ∧
    (type ≠ some "sonic" →
      ["-layers", "OptimizeTransparency"] <:+: bufferPromiseArgs format delay type ∧
      ["-fuzz", "2%"] <:+: bufferPromiseArgs format delay type ∧
      ∀ t ∈ ["-layers", "OptimizeTransparency", "-fuzz", "2%"],
        t ∈ bufferPromiseArgs format delay type) := by
  constructor
  · intro hs hdelay t ht hm
    subst hs
    have hx : 'x' ∉ t.data := by
      simp only [List.mem_cons, List.mem_singleton, List.not_mem_nil, or_false] at ht
      rcases ht with rfl | rfl | rfl | rfl <;> decide
    have hfix : t ∉ ["+profile", "xmp", "-limit", "memory", "64MB", "-limit", "map",
        "128MB", "-delay"] := by
      simp only [List.mem_cons, List.mem_singleton, List.not_mem_nil, or_false] at ht
      rcases ht with rfl | rfl | rfl | rfl <;> decide
    obtain ⟨d, hd, hsl, _⟩ := sonic_token_is_delay format delay t hx hfix hm
    exact hsl (hdelay d hd)
  · intro hn
    obtain ⟨D, hD⟩ : ∃ D, bufferPromiseArgs format delay type =
        D ++ ["-layers", "OptimizeTransparency", "-fuzz", "2%"] ++
          ["+profile", "xmp", "-limit", "memory", "64MB", "-limit", "map", "128MB"] :=
      ⟨_, by rw [bufferPromiseArgs_eq]; simp only [hn, if_false]; rfl⟩
    rw [hD]
    refine ⟨⟨D, ["-fuzz", "2%", "+profile", "xmp", "-limit", "memory", "64MB", "-limit",
      "map", "128MB"], by simp⟩, ⟨D ++ ["-layers", "OptimizeTransparency"], ["+profile",
      "xmp", "-limit", "memory", "64MB", "-limit", "map", "128MB"], by simp⟩, ?_⟩
    intro t ht
    simp only [List.mem_cons, List.mem_singleton, List.not_mem_nil, or_false] at ht
    rcases ht with rfl | rfl | rfl | rfl <;> simp

/-- The scenario format `ogg`, delay `100/3`, type `sonic`: no `-fuzz` token and
no `2%` token; and format `webp` with no delay and no type: `-fuzz` is followed
by `2%`. -/
theorem bufferPromiseArgs_mode_tokens_witness :
    "-fuzz" ∉ bufferPromiseArgs "ogg" (some "100/3") (some "sonic") ∧
      "2%" ∉ bufferPromiseArgs "ogg" (some "100/3") (some "sonic") ∧
      ["-fuzz", "2%"] <:+: bufferPromiseArgs "webp" none none :=
  ⟨(bufferPromiseArgs_mode_tokens "ogg" (some "100/3") (some "sonic")).1 rfl
      (fun d hd => by cases hd; decide) "-fuzz" (by decide),
    (bufferPromiseArgs_mode_tokens "ogg" (some "100/3") (some "sonic")).1 rfl
      (fun d hd => by cases hd; decide) "2%" (by decide),
    ((bufferPromiseArgs_mode_tokens "webp" none none).2 (by decide)).2.1⟩

/-- C4: for every handle, format, delay and type the output arguments end with
`+profile xmp -limit memory 64MB -limit map 128MB`, and so does the whole
argument sequence `bufferPromise` builds. -/
theorem bufferPromiseArgs_fixed_suffix (g : Gm) (format : String) (delay type : Option String) :
    ["+profile", "xmp", "-limit", "memory", "64MB", "-limit", "map", "128MB"] <:+
        (bufferPromiseChain g format delay type).outArgs ∧
      ["+profile", "xmp", "-limit", "memory", "64MB", "-limit", "map", "128MB"] <:+
        bufferPromiseArgs format delay type := by
  constructor
  · rw [chain_outArgs]
    exact List.suffix_append _ _
  · rw [bufferPromiseArgs_eq]
    exact List.suffix_append _ _

/-! ## The stream callback: single settlement -/

theorem settle_stderrListener (s : CallbackState) (o : Outcome) :
    (s.settle o).stderrListener = s.stderrListener := by
  unfold CallbackState.settle
  split <;> rfl

theorem settle_of_pending (s : CallbackState) (o : Outcome) (h : s.settled = none) :
    (s.settle o).settled = some o := by
  simp [CallbackState.settle, h]

theorem settle_of_settled (s : CallbackState) (o o' : Outcome) (h : s.settled = some o) :
    (s.settle o').settled = some o := by
  simp [CallbackState.settle, h]

theorem run_append (toString : Buffer → String) (s : CallbackState)
    (xs ys : List StreamEvent) :
    s.run toString (xs ++ ys) = (s.run toString xs).run toString ys := by
  simp [CallbackState.run, List.foldl_append]

theorem run_cons (toString : Buffer → String) (s : CallbackState) (e : StreamEvent)
    (es : List StreamEvent) :
    s.run toString (e :: es) = (s.step toString e).run toString es := rfl

/-- A settled promise keeps its outcome under one more event. -/
theorem step_settled (toString : Buffer → String) (s : CallbackState) (e : StreamEvent)
    (o : Outcome) (h : s.settled = some o) : (s.step toString e).settled = some o := by
  cases e with
  | stdoutData c => simpa [CallbackState.step] using h
  | stdoutEnd =>
    by_cases hl : s.endListener
    · simp only [CallbackState.step, hl, if_true]
      exact settle_of_settled _ _ _ h
    · simpa [CallbackState.step, hl] using h
  | stderrData d =>
    by_cases hl : s.stderrListener
    · simp only [CallbackState.step, hl, if_true]
      exact settle_of_settled _ _ _ h
    · simpa [CallbackState.step, hl] using h

/-- A settled promise keeps its outcome under every later sequence of events. -/
theorem run_settled (toString : Buffer → String) (events : List StreamEvent)
    (s : CallbackState) (o : Outcome) (h : s.settled = some o) :
    (s.run toString events).settled = some o := by
  induction events generalizing s with
  | nil => simpa [CallbackState.run] using h
  | cons e es ih =>
    rw [run_cons]
    exact ih _ (step_settled toString s e o h)

/-- Data chunks are pushed in arrival order and touch nothing else. -/
theorem run_stdoutData (toString : Buffer → String) (chunks : List Buffer)
    (s : CallbackState) :
    s.run toString (chunks.map StreamEvent.stdoutData) =
      { s with chunks := s.chunks ++ chunks } := by
  induction chunks generalizing s with
  | nil => simp [CallbackState.run]
  | cons c cs ih =>
    rw [List.map_cons, run_cons, ih]
    simp [CallbackState.step]

theorem step_stderr_off (toString : Buffer → String) (s : CallbackState) (e : StreamEvent)
    (h : s.stderrListener = false) : (s.step toString e).stderrListener = false := by
  cases e with
  | stdoutData c => simpa [CallbackState.step] using h
  | stdoutEnd =>
    by_cases hl : s.endListener
    · simp only [CallbackState.step, hl, if_true, settle_stderrListener]
      exact h
    · simpa [CallbackState.step, hl] using h
  | stderrData d => simp [CallbackState.step, h]

theorem run_stderr_off (toString : Buffer → String) (events : List StreamEvent)
    (s : CallbackState) (h : s.stderrListener = false) :
    (s.run toString events).stderrListener = false := by
  induction events generalizing s with
  | nil => simpa [CallbackState.run] using h
  | cons e es ih =>
    rw [run_cons]
    exact ih _ (step_stderr_off toString s e h)

/-- After a diagnostic event the `once` listener of the diagnostic channel is gone. -/
theorem step_stderrData_off (toString : Buffer → String) (s : CallbackState) (d : Buffer) :
    (s.step toString (.stderrData d)).stderrListener = false := by
  by_cases hl : s.stderrListener
  · simp [CallbackState.step, hl, settle_stderrListener]
  · simp [CallbackState.step, hl]

theorem pendingOrFailed_iff (s : CallbackState) :
    s.pendingOrFailed = true ↔
      (s.settled = none ∧ s.stderrListener = true) ∨ ∃ r, s.settled = some (.Failure r) := by
  unfold CallbackState.pendingOrFailed
  cases hs : s.settled with
  | none => simp
  | some o => cases o <;> simp

theorem step_pendingOrFailed (toString : Buffer → String) (s : CallbackState)
    (e : StreamEvent) (he : e ≠ .stdoutEnd) (h : s.pendingOrFailed = true) :
    (s.step toString e).pendingOrFailed = true := by
  rw [pendingOrFailed_iff] at h ⊢
  rcases h with ⟨hp, hl⟩ | ⟨r, hr⟩
  · cases e with
    | stdoutData c => exact Or.inl ⟨by simpa [CallbackState.step] using hp,
        by simpa [CallbackState.step] using hl⟩
    | stdoutEnd => exact absurd rfl he
    | stderrData d =>
      refine Or.inr ⟨.text (toString d), ?_⟩
      simp only [CallbackState.step, hl, if_true]
      exact settle_of_pending _ _ hp
  · exact Or.inr ⟨r, step_settled toString s e _ hr⟩

theorem run_pendingOrFailed (toString : Buffer → String) (events : List StreamEvent)
    (s : CallbackState) (he : StreamEvent.stdoutEnd ∉ events)
    (h : s.pendingOrFailed = true) :
    (s.run toString events).pendingOrFailed = true := by
  induction events generalizing s with
  | nil => simpa [CallbackState.run] using h
  | cons e es ih =>
    rw [run_cons]
    have h1 : e ≠ .stdoutEnd := fun hh => he (hh ▸ List.mem_cons_self _ _)
    exact ih _ (fun hh => he (List.mem_cons_of_mem _ hh))
      (step_pendingOrFailed toString s e h1 h)

/-- C5: with no spawn error, when the chunks `c1 … cn` arrive on the primary
channel and then its end event, with no diagnostic event before it, the promise
is resolved with the concatenation of the chunks in arrival order, whatever
events follow. -/
theorem stdout_chunks_concatenated (toString : Buffer → String) (chunks : List Buffer)
    (rest : List StreamEvent) :
    bufferPromiseOutcome toString none
        (chunks.map StreamEvent.stdoutData ++ StreamEvent.stdoutEnd :: rest) =
      some (.Success chunks.flatten) := by
  simp only [bufferPromiseOutcome]
  rw [run_append, run_stdoutData, run_cons]
  apply run_settled
  simp [CallbackState.step, CallbackState.start, CallbackState.settle]

/-- C6 as stated fails: when the end event of the primary channel arrives first,
two later diagnostic events leave the promise resolved; it is not rejected with
the first diagnostic payload. -/
theorem diagnostics_after_end_resolved :
    bufferPromiseOutcome byteText none
        [.stdoutEnd, .stderrData [101], .stderrData [102]] = some (.Success []) ∧
      bufferPromiseOutcome byteText none
        [.stdoutEnd, .stderrData [101], .stderrData [102]] ≠
          some (.Failure (.text (byteText [101]))) := by
  decide

/-- An event for which no listener is registered leaves the whole callback state
as it is. -/
theorem step_of_not_listens (toString : Buffer → String) (s : CallbackState)
    (e : StreamEvent) (h : s.listens e = false) : s.step toString e = s := by
  cases e with
  | stdoutData c => simp [CallbackState.listens] at h
  | stdoutEnd =>
    have hl : s.endListener = false := h
    simp [CallbackState.step, hl]
  | stderrData d =>
    have hl : s.stderrListener = false := h
    simp [CallbackState.step, hl]

/-- C6, amended: when the diagnostic channel fires more than once and its first
event arrives before the end event of the primary channel (only data chunks
precede it), the promise is rejected with exactly the first payload converted to
text, whatever events follow; and in every event sequence a diagnostic event
after an earlier one raises no fault and changes nothing: no listener is
registered for it, so it runs no code of the callback, the whole callback state
stays as it is, and the outcome is the one of the sequence without that event. -/
theorem first_diagnostic_wins (toString : Buffer → String) (err : Option String)
    (chunks : List Buffer) (d d1 d2 : Buffer) (pre mid post : List StreamEvent) :
    bufferPromiseOutcome toString none
        (chunks.map StreamEvent.stdoutData ++ StreamEvent.stderrData d :: post) =
      some (.Failure (.text (toString d))) ∧
    (CallbackState.start.run toString (pre ++ StreamEvent.stderrData d1 :: mid)).listens
        (StreamEvent.stderrData d2) = false ∧
    (CallbackState.start.run toString (pre ++ StreamEvent.stderrData d1 :: mid)).step toString
        (StreamEvent.stderrData d2) =
      CallbackState.start.run toString (pre ++ StreamEvent.stderrData d1 :: mid) ∧
    bufferPromiseOutcome toString err
        (pre ++ StreamEvent.stderrData d1 :: (mid ++ StreamEvent.stderrData d2 :: post)) =
      bufferPromiseOutcome toString err (pre ++ StreamEvent.stderrData d1 :: (mid ++ post)) := by
  have hoff : (CallbackState.start.run toString
      (pre ++ StreamEvent.stderrData d1 :: mid)).listens (StreamEvent.stderrData d2) =
        false := by
    rw [run_append, run_cons]
    exact run_stderr_off toString mid _
      (step_stderrData_off toString (CallbackState.start.run toString pre) d1)
  have hsame := step_of_not_listens toString _ _ hoff
  refine ⟨?_, hoff, hsame, ?_⟩
  · simp only [bufferPromiseOutcome]
    rw [run_append, run_stdoutData, run_cons]
    apply run_settled
    simp [CallbackState.step, CallbackState.start, CallbackState.settle]
  · cases err with
    | some e => rfl
    | none =>
      simp only [bufferPromiseOutcome]
      have e1 : pre ++ StreamEvent.stderrData d1 :: (mid ++ StreamEvent.stderrData d2 :: post) =
          (pre ++ StreamEvent.stderrData d1 :: mid) ++ StreamEvent.stderrData d2 :: post := by
        simp
      have e2 : pre ++ StreamEvent.stderrData d1 :: (mid ++ post) =
          (pre ++ StreamEvent.stderrData d1 :: mid) ++ post := by
        simp
      rw [e1, e2,
        run_append toString _ (pre ++ StreamEvent.stderrData d1 :: mid)
          (StreamEvent.stderrData d2 :: post),
        run_cons, hsame,
        run_append toString _ (pre ++ StreamEvent.stderrData d1 :: mid) post]

/-- C7: when a diagnostic event arrives before the end event of the primary
channel, the promise is rejected once that event is delivered and has the same
rejected outcome after every later event; and for every event sequence an outcome
that is settled stays the same under every continuation, so a promise is never
settled twice. -/
theorem diagnostic_before_end_fails (toString : Buffer → String) (err : Option String)
    (pre post : List StreamEvent) (d : Buffer) (hpre : StreamEvent.stdoutEnd ∉ pre) :
    (∃ r, bufferPromiseOutcome toString err (pre ++ [StreamEvent.stderrData d]) =
          some (.Failure r) ∧
        bufferPromiseOutcome toString err (pre ++ StreamEvent.stderrData d :: post) =
          some (.Failure r)) ∧
    ∀ (events more : List StreamEvent) (o : Outcome),
      bufferPromiseOutcome toString err events = some o →
        bufferPromiseOutcome toString err (events ++ more) = some o := by
  have hstable : ∀ (events more : List StreamEvent) (o : Outcome),
      bufferPromiseOutcome toString err events = some o →
        bufferPromiseOutcome toString err (events ++ more) = some o := by
    intro events more o h
    cases err with
    | some e => exact h
    | none =>
      simp only [bufferPromiseOutcome] at h ⊢
      rw [run_append]
      exact run_settled toString more _ o h
  refine ⟨?_, hstable⟩
  have hfail : ∃ r, bufferPromiseOutcome toString err (pre ++ [StreamEvent.stderrData d]) =
      some (.Failure r) := by
    cases err with
    | some e => exact ⟨.error e, rfl⟩
    | none =>
      simp only [bufferPromiseOutcome]
      have hinv := run_pendingOrFailed toString (pre ++ [StreamEvent.stderrData d])
        CallbackState.start (by simpa using hpre) rfl
      rw [pendingOrFailed_iff] at hinv
      rcases hinv with ⟨hp, hl⟩ | ⟨r, hr⟩
      · rw [run_append] at hl
        have hoff := step_stderrData_off toString (CallbackState.start.run toString pre) d
        simp only [CallbackState.run, List.foldl_cons, List.foldl_nil] at hl hoff
        rw [hoff] at hl
        exact absurd hl (by simp)
      · exact ⟨r, hr⟩
  obtain ⟨r, hr⟩ := hfail
  refine ⟨r, hr, ?_⟩
  have := hstable (pre ++ [StreamEvent.stderrData d]) post (.Failure r) hr
  simpa using this

/-- A chunk, a diagnostic, then more data and the end event: the outcome is the
rejection with the diagnostic text. -/
theorem diagnostic_before_end_fails_witness :
    StreamEvent.stdoutEnd ∉ [StreamEvent.stdoutData [104]] ∧
      bufferPromiseOutcome byteText none
          ([StreamEvent.stdoutData [104]] ++
            StreamEvent.stderrData [101] :: [.stdoutData [105], .stdoutEnd]) =
        some (.Failure (.text "e")) := by
  refine ⟨by decide, ?_⟩
  obtain ⟨r, h1, h2⟩ := (diagnostic_before_end_fails byteText none
    [StreamEvent.stdoutData [104]] [.stdoutData [105], .stdoutEnd] [101] (by decide)).1
  have h3 : bufferPromiseOutcome byteText none
      ([StreamEvent.stdoutData [104]] ++ [StreamEvent.stderrData [101]]) =
        some (.Failure (.text "e")) := by decide
  rw [h3] at h1
  rw [h2, h1]

/-! ## The weekly stale-entry job -/

theorem staleFold (guilds : List String) (snapshot : List GuildDoc) (store : GuildStore) :
    snapshot.foldl (staleStep guilds) store =
      store.filter (fun d =>
        guilds.contains d.id || !(snapshot.map GuildDoc.id).contains d.id) := by
  induction snapshot generalizing store with
  | nil => simp
  | cons x xs ih =>
    rw [List.foldl_cons, ih]
    cases hx : guilds.contains x.id with
    | true =>
      simp only [staleStep, hx, if_true]
      apply List.filter_congr
      intro d _
      simp only [List.map_cons, List.contains_cons]
      by_cases hd : d.id = x.id
      · have hg : guilds.contains d.id = true := by rw [hd]; exact hx
        simp only [hg, Bool.true_or]
      · have hb : (d.id == x.id) = false := by simpa using hd
        simp only [hb, Bool.false_or]
    | false =>
      simp only [staleStep, hx, Bool.false_eq_true, if_false, deleteMany, List.filter_filter]
      apply List.filter_congr
      intro d _
      simp only [List.map_cons, List.contains_cons]
      by_cases hd : d.id = x.id
      · have hg : guilds.contains d.id = false := by rw [hd]; exact hx
        have hb : (d.id == x.id) = true := by simpa using hd
        simp only [bne, hg, hb, Bool.true_or, Bool.not_true, Bool.and_false, Bool.or_false]
      · have hb : (d.id == x.id) = false := by simpa using hd
        simp only [bne, hb, Bool.false_or, Bool.not_false, Bool.and_true]

/-- C8: after the weekly job the store holds exactly the documents of the
original store whose id is the id of a live guild, unchanged and in their
original order; every other document is gone. -/
theorem staleJob_keeps_live (guilds : List String) (store : GuildStore) :
    staleJob guilds store = store.filter (fun d => guilds.contains d.id) ∧
      ∀ d, d ∈ staleJob guilds store ↔ d ∈ store ∧ d.id ∈ guilds := by
  have h : staleJob guilds store = store.filter (fun d => guilds.contains d.id) := by
    unfold staleJob
    rw [staleFold]
    apply List.filter_congr
    intro d hd
    have hmem : (store.map GuildDoc.id).contains d.id = true := by
      simpa using ⟨d, hd, rfl⟩
    rw [hmem]
    simp only [Bool.not_true, Bool.or_false]
  refine ⟨h, ?_⟩
  intro d
  rw [h]
  simp [List.mem_filter]

/-! ## The reconciliation loop -/

theorem hydrate_id (d : GuildDoc) : (hydrate d).id = d.id := rfl

/-- Saving a document changes what a query finds for its own id only. -/
theorem find_saveFound (i j : String) (f : GuildDoc → GuildDoc)
    (hf : ∀ d, (f d).id = d.id) (s : GuildStore) :
    (saveFound i f s).find? (fun d => d.id == j) =
      if j = i then (s.find? (fun d => d.id == i)).map (fun d => f (hydrate d))
      else s.find? (fun d => d.id == j) := by
  induction s with
  | nil => simp [saveFound]
  | cons d ds ih =>
    by_cases hdi : d.id = i
    · have hb : (d.id == i) = true := by simpa using hdi
      simp only [saveFound, hb, if_true]
      by_cases hji : j = i
      · subst hji
        have h1 : ((f (hydrate d)).id == j) = true := by
          rw [hf, hydrate_id]; exact hb
        simp [List.find?, h1, hb]
      · have h1 : ((f (hydrate d)).id == j) = false := by
          rw [hf, hydrate_id, hdi]
          simpa using fun h => hji h.symm
        have h2 : (d.id == j) = false := by
          rw [hdi]
          simpa using fun h => hji h.symm
        simp [List.find?, h1, h2, hji]
    · have hb : (d.id == i) = false := by simpa using hdi
      simp only [saveFound, hb, Bool.false_eq_true, if_false]
      by_cases hji : j = i
      · subst hji
        simp only [List.find?, hb, ih, if_true]
      · by_cases hdj : d.id = j
        · have h2 : (d.id == j) = true := by simpa using hdj
          simp [List.find?, h2, hji]
        · have h2 : (d.id == j) = false := by simpa using hdj
          simp only [List.find?, h2, ih, hji, if_false]

/-- A guild whose first record carries `warns` is left alone by the loop body. -/
theorem reconcileGuild_of_hasWarns (tagDefaults : Tags) (s : GuildStore) (i : String)
    (h : hasWarns s i = true) : reconcileGuild tagDefaults s i = s := by
  unfold hasWarns at h
  cases hfind : s.find? (fun d => d.id == i) with
  | none => simp [hfind] at h
  | some d =>
    simp only [hfind] at h
    have hw : d.warns.isNone = false := by
      cases hd : d.warns with
      | none => simp [hd] at h
      | some w => rfl
    simp [reconcileGuild, findOne, hfind, hydrate, hw]

/-- After the loop body has run for a guild, its first record carries `warns`. -/
theorem hasWarns_reconcileGuild_self (tagDefaults : Tags) (s : GuildStore) (i : String) :
    hasWarns (reconcileGuild tagDefaults s i) i = true := by
  cases hfind : s.find? (fun d => d.id == i) with
  | none =>
    simp [reconcileGuild, findOne, hfind, hasWarns, List.find?_append, newGuild]
  | some d =>
    cases hd : d.warns with
    | none =>
      have hstep : reconcileGuild tagDefaults s i =
          saveFound i (fun d => { d with warns := some [] }) s := by
        simp [reconcileGuild, findOne, hfind, hydrate, hd]
      rw [hstep]
      unfold hasWarns
      rw [find_saveFound i i (fun d => { d with warns := some [] }) (fun _ => rfl)]
      simp [hfind]
    | some w =>
      have hh : hasWarns s i = true := by simp [hasWarns, hfind, hd]
      rw [reconcileGuild_of_hasWarns tagDefaults s i hh]
      exact hh

/-- The loop body for one guild does not change what holds for another. -/
theorem hasWarns_reconcileGuild_other (tagDefaults : Tags) (s : GuildStore) (i j : String)
    (hji : j ≠ i) : hasWarns (reconcileGuild tagDefaults s i) j = hasWarns s j := by
  cases hfind : s.find? (fun d => d.id == i) with
  | none =>
    have hb : (i == j) = false := by simpa using fun h => hji h.symm
    simp [reconcileGuild, findOne, hfind, hasWarns, List.find?_append, newGuild, hb]
  | some d =>
    cases hd : d.warns with
    | none =>
      have hstep : reconcileGuild tagDefaults s i =
          saveFound i (fun d => { d with warns := some [] }) s := by
        simp [reconcileGuild, findOne, hfind, hydrate, hd]
      rw [hstep]
      unfold hasWarns
      rw [find_saveFound i j (fun d => { d with warns := some [] }) (fun _ => rfl)]
      simp [hji]
    | some w =>
      have hh : hasWarns s i = true := by simp [hasWarns, hfind, hd]
      rw [reconcileGuild_of_hasWarns tagDefaults s i hh]

theorem hasWarns_reconcile (tagDefaults : Tags) (guilds : List String) (s : GuildStore)
    (j : String) (h : j ∈ guilds ∨ hasWarns s j = true) :
    hasWarns (reconcile tagDefaults guilds s) j = true := by
  induction guilds generalizing s with
  | nil =>
    rcases h with h | h
    · simp at h
    · simpa [reconcile] using h
  | cons i is ih =>
    have hstep : reconcile tagDefaults (i :: is) s =
        reconcile tagDefaults is (reconcileGuild tagDefaults s i) := rfl
    rw [hstep]
    apply ih
    by_cases hji : j = i
    · subst hji
      exact Or.inr (hasWarns_reconcileGuild_self tagDefaults s j)
    · rcases h with h | h
      · rcases List.mem_cons.1 h with h | h
        · exact absurd h hji
        · exact Or.inl h
      · exact Or.inr (by rw [hasWarns_reconcileGuild_other tagDefaults s i j hji]; exact h)

theorem reconcile_of_hasWarns (tagDefaults : Tags) (guilds : List String) (s : GuildStore)
    (h : ∀ j ∈ guilds, hasWarns s j = true) : reconcile tagDefaults guilds s = s := by
  induction guilds with
  | nil => rfl
  | cons i is ih =>
    have hstep : reconcile tagDefaults (i :: is) s =
        reconcile tagDefaults is (reconcileGuild tagDefaults s i) := rfl
    rw [hstep, reconcileGuild_of_hasWarns tagDefaults s i (h i (List.mem_cons_self _ _))]
    exact ih (fun j hj => h j (List.mem_cons_of_mem _ hj))

/-- C9: for every store and every list of live guilds, a second run of the
reconciliation loop leaves the store exactly as the first run left it; after one
run the document loaded for every live guild has `warns` and `disabledChannels`
present, so the second run writes nothing. -/
theorem reconcile_idempotent (tagDefaults : Tags) (guilds : List String)
    (store : GuildStore) :
    reconcile tagDefaults guilds (reconcile tagDefaults guilds store) =
        reconcile tagDefaults guilds store ∧
      ∀ id ∈ guilds, ∃ d, findOne (reconcile tagDefaults guilds store) id = some d ∧
        d.warns.isSome = true ∧ d.disabledChannels.isSome = true := by
  have hall : ∀ j ∈ guilds, hasWarns (reconcile tagDefaults guilds store) j = true :=
    fun j hj => hasWarns_reconcile tagDefaults guilds store j (Or.inl hj)
  refine ⟨reconcile_of_hasWarns tagDefaults guilds _ hall, ?_⟩
  intro id hid
  have h := hall id hid
  unfold hasWarns at h
  cases hfind : (reconcile tagDefaults guilds store).find? (fun d => d.id == id) with
  | none => simp [hfind] at h
  | some d =>
    simp only [hfind] at h
    exact ⟨hydrate d, by simp [findOne, hfind], h, rfl⟩

/-- A record of the live guild `g` that lacks `warns` and `disabledChannels`: the
first run writes both, the second run changes nothing. -/
theorem reconcile_idempotent_witness :
    reconcile [] ["g"]
        [{ id := "g", tags := none, pfx := none, warns := none, disabledChannels := none }] =
      [{ id := "g", tags := none, pfx := none, warns := some [],
         disabledChannels := some [] }] ∧
    reconcile [] ["g"] (reconcile [] ["g"]
        [{ id := "g", tags := none, pfx := none, warns := none, disabledChannels := none }]) =
      reconcile [] ["g"]
        [{ id := "g", tags := none, pfx := none, warns := none, disabledChannels := none }] :=
  ⟨by decide, (reconcile_idempotent [] ["g"]
    [{ id := "g", tags := none, pfx := none, warns := none, disabledChannels := none }]).1⟩

/-! ## The command counters -/

theorem get_set (m : CmdCounts) (k x : String) (v : Int) :
    (m.set k v).get x = if x = k then some v else m.get x := by
  induction m with
  | nil =>
    by_cases h : x = k
    · subst h
      simp [CmdCounts.set, CmdCounts.get, List.lookup]
    · have hb : (x == k) = false := by simpa using h
      simp [CmdCounts.set, CmdCounts.get, List.lookup, hb, h]
  | cons p m ih =>
    obtain ⟨k1, v1⟩ := p
    simp only [CmdCounts.get] at ih ⊢
    by_cases hk : k = k1
    · subst hk
      have hkk : (k == k) = true := by simp
      simp only [CmdCounts.set, hkk, if_true]
      by_cases h : x = k
      · subst h
        simp [List.lookup]
      · have hb : (x == k) = false := by simpa using h
        simp [List.lookup, hb, h]
    · have hkb : (k == k1) = false := by simpa using hk
      simp only [CmdCounts.set, hkb, Bool.false_eq_true, if_false]
      by_cases h1 : x = k1
      · subst h1
        have hxk : ¬ x = k := fun he => hk he.symm
        simp [List.lookup, hxk]
      · have hb1 : (x == k1) = false := by simpa using h1
        simp only [List.lookup, hb1]
        exact ih

theorem has_eq (m : CmdCounts) (k : String) : m.has k = (m.get k).isSome := rfl

/-- The lookup of a name after the loop over an existing record. -/
theorem syncFold_get (commands : List String) (m : CmdCounts) (k : String) :
    (commands.foldl (fun m c => if m.has c then m else m.set c 0) m).get k =
      match m.get k with
      | some v => some v
      | none => if k ∈ commands then some 0 else none := by
  induction commands generalizing m with
  | nil => cases h : m.get k <;> simp [h]
  | cons c cs ih =>
    rw [List.foldl_cons, ih]
    cases hc : m.has c with
    | true =>
      simp only [if_true]
      cases h : m.get k with
      | some v => rfl
      | none =>
        have hkc : k ≠ c := by
          intro he
          subst he
          rw [has_eq, h] at hc
          simp at hc
        simp [hkc]
    | false =>
      simp only [Bool.false_eq_true, if_false]
      rw [get_set]
      by_cases hkc : k = c
      · subst hkc
        have hn : m.get k = none := by
          rw [has_eq] at hc
          simpa using hc
        simp [hn]
      · simp only [hkc, if_false]
        cases h : m.get k <;> simp [hkc]

/-- The lookup of a name after the loop that fills a fresh count object. -/
theorem freshFold_get (commands : List String) (m : CmdCounts) (k : String) :
    (commands.foldl (fun countObject c => assignKey countObject c 0) m).get k =
      if k ∈ commands ∧ k ≠ "__proto__" then some 0 else m.get k := by
  induction commands generalizing m with
  | nil => simp
  | cons c cs ih =>
    rw [List.foldl_cons, ih]
    by_cases hc : c = "__proto__"
    · have hb : (c == "__proto__") = true := by simpa using hc
      simp only [assignKey, hb, if_true]
      by_cases h1 : k ∈ cs ∧ k ≠ "__proto__"
      · have h2 : k ∈ c :: cs ∧ k ≠ "__proto__" := ⟨List.mem_cons_of_mem _ h1.1, h1.2⟩
        rw [if_pos h1, if_pos h2]
      · have h2 : ¬ (k ∈ c :: cs ∧ k ≠ "__proto__") := by
          rintro ⟨hm, hk⟩
          rcases List.mem_cons.1 hm with hm | hm
          · exact hk (hm.trans hc)
          · exact h1 ⟨hm, hk⟩
        rw [if_neg h1, if_neg h2]
    · have hb : (c == "__proto__") = false := by simpa using hc
      simp only [assignKey, hb, Bool.false_eq_true, if_false]
      rw [get_set]
      by_cases h1 : k ∈ cs ∧ k ≠ "__proto__"
      · have h2 : k ∈ c :: cs ∧ k ≠ "__proto__" := ⟨List.mem_cons_of_mem _ h1.1, h1.2⟩
        rw [if_pos h1, if_pos h2]
      · by_cases hkc : k = c
        · have h2 : k ∈ c :: cs ∧ k ≠ "__proto__" :=
            ⟨hkc ▸ List.mem_cons_self _ _, hkc ▸ hc⟩
          rw [if_neg h1, if_pos h2, if_pos hkc]
        · have h2 : ¬ (k ∈ c :: cs ∧ k ≠ "__proto__") := by
            rintro ⟨hm, hk⟩
            rcases List.mem_cons.1 hm with hm | hm
            · exact hkc hm
            · exact h1 ⟨hm, hk⟩
          rw [if_neg h1, if_neg h2, if_neg hkc]

/-- C10 as stated fails: with no global record and a registered command named
`__proto__`, the assignment on the plain count object creates no property, so the
created record has no entry for that command. -/
theorem proto_command_gets_no_entry :
    (syncCmdCounts none ["__proto__"]).cmdCounts.has "__proto__" = false ∧
      (syncCmdCounts none ["__proto__"]).cmdCounts.get "__proto__" = none := by
  decide

/-- C10, amended: after the synchronisation of an existing global record every
registered command has an entry, every entry that existed keeps its count, and
every entry that was added belongs to a registered command and has count 0; with
no global record the created one maps every registered command other than
`__proto__` to 0 and holds nothing else. -/
theorem syncCmdCounts_entries (g : GlobalDoc) (commands : List String) :
    (∀ c ∈ commands, (syncCmdCounts (some g) commands).cmdCounts.has c = true) ∧
    (∀ k v, g.cmdCounts.get k = some v →
      (syncCmdCounts (some g) commands).cmdCounts.get k = some v) ∧
    (∀ k, g.cmdCounts.has k = false →
      (syncCmdCounts (some g) commands).cmdCounts.has k = true →
        (syncCmdCounts (some g) commands).cmdCounts.get k = some 0 ∧ k ∈ commands) ∧
    (∀ k, (syncCmdCounts none commands).cmdCounts.get k =
      if k ∈ commands ∧ k ≠ "__proto__" then some 0 else none) := by
  refine ⟨?_, ?_, ?_, ?_⟩
  · intro c hc
    have hget := syncFold_get commands g.cmdCounts c
    show ((commands.foldl (fun m c => if m.has c then m else m.set c 0)
      g.cmdCounts).get c).isSome = true
    rw [hget]
    cases h : g.cmdCounts.get c <;> simp [hc]
  · intro k v hk
    have hget := syncFold_get commands g.cmdCounts k
    rw [hk] at hget
    exact hget
  · intro k hk
    have hn : g.cmdCounts.get k = none := by
      rw [has_eq] at hk
      simpa using hk
    have hget := syncFold_get commands g.cmdCounts k
    rw [hn] at hget
    show ((commands.foldl (fun m c => if m.has c then m else m.set c 0)
        g.cmdCounts).get k).isSome = true →
      (commands.foldl (fun m c => if m.has c then m else m.set c 0) g.cmdCounts).get k =
        some 0 ∧ k ∈ commands
    rw [hget]
    by_cases hm : k ∈ commands <;> simp [hm]
  · intro k
    simp only [syncCmdCounts, freshFold_get]
    rfl

/-- A record that counts `a` three times, synchronised with the commands `b` and
`a`: `b` is added with count 0 and `a` keeps its count; and with no record the
command `b` is created with count 0. -/
theorem syncCmdCounts_entries_witness :
    (syncCmdCounts (some ⟨[("a", 3)]⟩) ["b", "a"]).cmdCounts.has "b" = true ∧
      (syncCmdCounts (some ⟨[("a", 3)]⟩) ["b", "a"]).cmdCounts.get "a" = some 3 ∧
      (syncCmdCounts (some ⟨[("a", 3)]⟩) ["b", "a"]).cmdCounts.get "b" = some 0 ∧
      (syncCmdCounts none ["b", "a"]).cmdCounts.get "b" = some 0 :=
  ⟨(syncCmdCounts_entries ⟨[("a", 3)]⟩ ["b", "a"]).1 "b" (by decide),
    (syncCmdCounts_entries ⟨[("a", 3)]⟩ ["b", "a"]).2.1 "a" 3 (by decide),
    ((syncCmdCounts_entries ⟨[("a", 3)]⟩ ["b", "a"]).2.2.1 "b" (by decide) (by decide)).1,
    by
      have h := (syncCmdCounts_entries ⟨[("a", 3)]⟩ ["b", "a"]).2.2.2 "b"
      rw [h]
      decide⟩

end ReadyJs
